import Mathlib

/-!
Verification of the chord analyzer core (src/src/main.rs).

The Rust strings are modelled as lists of characters (`List Char`); the
byte-oriented operations of the source (`str::len`, byte-range slicing)
are modelled through `Char.utf8Size`, so that the out-of-bounds and
char-boundary panics of the source are visible in the model: a function
that can panic returns an `Option`, with `none` standing for the panic.
All other functions are translated directly from the source.
-/

/-- Code points of the Unicode White_Space property, the set recognized by
the Rust function char::is_whitespace, which str::trim uses. -/
def rustWhitespaceCodes : List Nat :=
  [0x09, 0x0A, 0x0B, 0x0C, 0x0D, 0x20, 0x85, 0xA0, 0x1680,
   0x2000, 0x2001, 0x2002, 0x2003, 0x2004, 0x2005, 0x2006, 0x2007,
   0x2008, 0x2009, 0x200A, 0x2028, 0x2029, 0x202F, 0x205F, 0x3000]

/-- Models char::is_whitespace from Rust. -/
def rustIsWhitespace (c : Char) : Bool :=
  rustWhitespaceCodes.contains c.toNat

/-- Models str::trim_start: drop leading whitespace. -/
def trimLeft : List Char → List Char
  | [] => []
  | c :: rest => if rustIsWhitespace c then trimLeft rest else c :: rest

/-- Models str::trim_end: drop trailing whitespace. -/
def trimRight : List Char → List Char
  | [] => []
  | c :: rest =>
    match trimRight rest with
    | [] => if rustIsWhitespace c then [] else [c]
    | d :: r => c :: d :: r

/-- Models str::trim: drop whitespace at both ends. -/
def rustTrim (l : List Char) : List Char := trimRight (trimLeft l)

/-- Models str::split with separator the slash character, collected into a
vector of parts: the result is always non-empty, and an empty input gives
one empty part. -/
def splitSlash : List Char → List (List Char)
  | [] => [[]]
  | c :: rest =>
    match splitSlash rest with
    | [] => [[]]
    | p :: ps => if c = '/' then [] :: p :: ps else (c :: p) :: ps

/-- The part before the first slash: parts[0] in the source. -/
def symbolOf (s : List Char) : List Char := (splitSlash s).headD []

/-- The bass spelling: parts[1] if there was a slash, otherwise empty,
as in the source (`if parts.len() > 1 { parts[1] } else { "" }`). -/
def bassOf (s : List Char) : List Char :=
  if (splitSlash s).length > 1 then (splitSlash s).getD 1 [] else []

/-- Models the root/quality separation step of parse_chord_v5.  The Rust
code tests `symbol.len() > 1` (the BYTE length), reads
`symbol.chars().nth(1).unwrap()` and then slices at byte offsets 1 or 2.
`none` models a panic: the `unwrap` fails when the symbol is a single
multi-byte character, and a byte slice such as `&symbol[0..1]` panics
when the first character occupies more than one byte (a slice at byte 2
tolerates a two-byte first character).  A symbol of byte length at most 1
is returned whole with an empty quality. -/
def rootSplit : List Char → Option (List Char × List Char)
  | [] => some ([], [])
  | [c] => if c.utf8Size > 1 then none else some ([c], [])
  | c0 :: c1 :: rest =>
    if c1 = '#' ∨ c1 = 'b' then
      if c0.utf8Size = 1 then some ([c0, c1], rest)
      else if c0.utf8Size = 2 then some ([c0], c1 :: rest)
      else none
    else
      if c0.utf8Size = 1 then some ([c0], c1 :: rest) else none

/-- The note-name table of get_note_mapping in the source, as an
association list (the HashMap keys are distinct, so lookup order does
not matter). -/
def get_note_mapping : List (List Char × Nat) :=
  [("C".data, 0), ("C#".data, 1), ("Db".data, 1),
   ("D".data, 2), ("D#".data, 3), ("Eb".data, 3),
   ("E".data, 4),
   ("F".data, 5), ("F#".data, 6), ("Gb".data, 6),
   ("G".data, 7), ("G#".data, 8), ("Ab".data, 8),
   ("A".data, 9), ("A#".data, 10), ("Bb".data, 10),
   ("B".data, 11)]

/-- Note-name lookup, modelling `map.get(name)`. -/
def lookupNote (s : List Char) : Option Nat := get_note_mapping.lookup s

/-- The chord-quality dictionary of get_quality_intervals, written as an
association list: each Rust match arm with several alternative string
patterns becomes one entry per pattern, in source order (the patterns are
pairwise distinct, so first-match lookup is the match semantics). -/
def qualityTable : List (List Char × List Nat) :=
  [("".data, [0, 4, 7]), ("M".data, [0, 4, 7]), ("maj".data, [0, 4, 7]),
   ("m".data, [0, 3, 7]), ("min".data, [0, 3, 7]), ("-".data, [0, 3, 7]),
   ("dim".data, [0, 3, 6]), ("o".data, [0, 3, 6]),
   ("aug".data, [0, 4, 8]), ("+".data, [0, 4, 8]),
   ("sus4".data, [0, 5, 7]), ("sus".data, [0, 5, 7]),
   ("sus2".data, [0, 2, 7]),
   ("7".data, [0, 4, 7, 10]), ("dom7".data, [0, 4, 7, 10]),
   ("M7".data, [0, 4, 7, 11]), ("maj7".data, [0, 4, 7, 11]),
   ("Maj7".data, [0, 4, 7, 11]), ("jq".data, [0, 4, 7, 11]),
   ("m7".data, [0, 3, 7, 10]), ("min7".data, [0, 3, 7, 10]),
   ("-7".data, [0, 3, 7, 10]),
   ("mM7".data, [0, 3, 7, 11]), ("mMaj7".data, [0, 3, 7, 11]),
   ("dim7".data, [0, 3, 6, 9]), ("o7".data, [0, 3, 6, 9]),
   ("m7-5".data, [0, 3, 6, 10]), ("m7b5".data, [0, 3, 6, 10]),
   ("half-dim".data, [0, 3, 6, 10]), ("ø".data, [0, 3, 6, 10]),
   ("7sus4".data, [0, 5, 7, 10]),
   ("6".data, [0, 4, 7, 9]),
   ("m6".data, [0, 3, 7, 9]),
   ("9".data, [0, 4, 7, 10, 14]),
   ("add9".data, [0, 4, 7, 14]),
   ("M9".data, [0, 4, 7, 11, 14]), ("maj9".data, [0, 4, 7, 11, 14]),
   ("m9".data, [0, 3, 7, 10, 14]), ("min9".data, [0, 3, 7, 10, 14]),
   ("11".data, [0, 4, 7, 10, 14, 17]),
   ("m11".data, [0, 3, 7, 10, 14, 17]),
   ("13".data, [0, 4, 7, 10, 14, 21]),
   ("M13".data, [0, 4, 7, 11, 14, 21]),
   ("7#9".data, [0, 4, 7, 10, 15]),
   ("7b9".data, [0, 4, 7, 10, 13]),
   ("7#5".data, [0, 4, 8, 10]), ("aug7".data, [0, 4, 8, 10])]

/-- Models get_quality_intervals: dictionary lookup with the power-chord
fallback [0, 7] for any token not in the table. -/
def get_quality_intervals (quality : List Char) : List Nat :=
  (qualityTable.lookup quality).getD [0, 7]

/-- The chord tones generated from a resolved root index and a quality
token: `(root_idx + i) % 12` for each interval, in interval order.
The u8 additions cannot overflow (root at most 11, interval at most 21). -/
def rootNotes (rootIdx : Nat) (quality : List Char) : List Nat :=
  (get_quality_intervals quality).map (fun i => (rootIdx + i) % 12)

/-- The bass-note step of parse_chord_v5: if a bass spelling is present
and resolves, and its pitch class is not already among the notes, it is
inserted as the new first element; otherwise the notes are unchanged. -/
def addBass (bass : List Char) (notes : List Nat) : List Nat :=
  if bass = [] then notes
  else
    match lookupNote bass with
    | some b => if b ∈ notes then notes else b :: notes
    | none => notes

/-- Model of parse_chord_v5.  Returns `none` exactly when the Rust
function panics (inside the root/quality separation, see rootSplit);
otherwise `some (display_name, quality, notes)` as in the source. -/
def parse_chord_v5 (input : List Char) : Option (List Char × List Char × List Nat) :=
  if rustTrim input = [] then some (['?'], [], [])
  else
    match rootSplit (symbolOf (rustTrim input)) with
    | none => none
    | some (rootStr, qualityStr) =>
      match lookupNote rootStr with
      | none => some ("Err:".data ++ rootStr, [], [])
      | some rootIdx =>
        some ((if bassOf (rustTrim input) = [] then rootStr
               else rootStr ++ '/' :: bassOf (rustTrim input)),
              qualityStr,
              addBass (bassOf (rustTrim input)) (rootNotes rootIdx qualityStr))

/-- Models get_scale_mask: the major-scale pitch classes of a root.  The
source builds a HashSet; the seven values are pairwise distinct, and the
set is only ever used through membership and intersection counting, so a
list is a faithful model. -/
def get_scale_mask (root : Nat) : List Nat :=
  [0, 2, 4, 5, 7, 9, 11].map (fun i => (root + i) % 12)

/-- The fixed circle-of-fifths search table of calculate_tonal_depth:
(depth, root pitch class, root name), in visitation order. -/
def search_order : List (Int × Nat × String) :=
  [(0, 0, "C"), (1, 7, "G"), (-1, 5, "F"),
   (2, 2, "D"), (-2, 10, "Bb"),
   (3, 9, "A"), (-3, 3, "Eb"),
   (4, 4, "E"), (-4, 8, "Ab"),
   (5, 11, "B"), (-5, 1, "Db"),
   (6, 6, "F#"), (-6, 6, "Gb")]

/-- One iteration of the search loop in calculate_tonal_depth: compute the
intersection score of the chord set with the candidate scale, and update
the running maximum and the tied-candidate list. -/
def scanStep (chordSet : List Nat) (acc : Nat × List (Int × String))
    (cand : Int × Nat × String) : Nat × List (Int × String) :=
  let score := (chordSet.filter (fun n => n ∈ get_scale_mask cand.2.1)).length
  if score > acc.1 then (score, [(cand.1, cand.2.2)])
  else if score = acc.1 then (acc.1, acc.2 ++ [(cand.1, cand.2.2)])
  else acc

/-- The whole search loop: fold scanStep over the search order, starting
from maximum 0 and no candidates. -/
def collectCandidates (chordSet : List Nat) : Nat × List (Int × String) :=
  search_order.foldl (scanStep chordSet) (0, [])

/-- Insert one candidate into a list sorted by absolute depth, placing it
after every element of smaller-or-equal key: the insertion point used by
a stable sort. -/
def insertAbs (x : Int × String) : List (Int × String) → List (Int × String)
  | [] => [x]
  | y :: ys => if y.1.natAbs ≤ x.1.natAbs then y :: insertAbs x ys else x :: y :: ys

/-- Stable sort by the absolute value of the depth, modelling
`candidates.sort_by_key(|k| k.0.abs())` (Rust sort_by_key is stable;
this left-fold insertion sort is likewise stable, so the two agree). -/
def sortByAbsDepth (l : List (Int × String)) : List (Int × String) :=
  l.foldl (fun acc x => insertAbs x acc) []

/-- Model of calculate_tonal_depth: dedupe the chord notes (the HashSet),
run the search loop, then, when the maximum score equals the distinct
count and the candidate list is non-empty, keep only the first candidate
of the stable sort by absolute depth. -/
def calculate_tonal_depth (chord_notes : List Nat) :
    List (Int × String) × Nat × Bool :=
  let total := chord_notes.dedup.length
  let ms := (collectCandidates chord_notes.dedup).1
  let cs := (collectCandidates chord_notes.dedup).2
  let is_perfect := ms == total
  (if is_perfect && !cs.isEmpty then (sortByAbsDepth cs).take 1 else cs,
   ms, is_perfect)

/-- The twelve degree names in diff order, as listed in the source. -/
def intervalLabels : List String :=
  ["R", "b9", "9", "m3", "M3", "11", "#11", "5", "b13", "13", "m7", "M7"]

/-- Model of get_interval_label.  For root and target both below 12 the
u8 expression `(target + 12 - root) % 12` neither underflows nor
overflows, so plain natural arithmetic is faithful there. -/
def get_interval_label (root target : Nat) : String :=
  match (target + 12 - root) % 12 with
  | 0 => "R" | 1 => "b9" | 2 => "9" | 3 => "m3" | 4 => "M3" | 5 => "11"
  | 6 => "#11" | 7 => "5" | 8 => "b13" | 9 => "13" | 10 => "m7" | 11 => "M7"
  | _ => "?"

/-- The five enharmonic root-spelling pairs of the note table: both
members of each pair resolve to the same pitch class. -/
def enharmonic_pairs : List (List Char × List Char) :=
  [(['C', '#'], ['D', 'b']), (['D', '#'], ['E', 'b']),
   (['F', '#'], ['G', 'b']), (['G', '#'], ['A', 'b']),
   (['A', '#'], ['B', 'b'])]

/-- The slash split always produces at least one part. -/
lemma splitSlash_ne_nil (l : List Char) : splitSlash l ≠ [] := by
  induction l with
  | nil => simp [splitSlash]
  | cons c rest ih =>
    unfold splitSlash
    cases hsp : splitSlash rest with
    | nil => exact absurd hsp ih
    | cons p ps => by_cases hc : c = '/' <;> simp [hc]

/-- Definitional unfolding of the slash split on a cons cell. -/
lemma splitSlash_cons_def (c : Char) (rest : List Char) :
    splitSlash (c :: rest) =
      match splitSlash rest with
      | [] => [[]]
      | p :: ps => if c = '/' then [] :: p :: ps else (c :: p) :: ps := rfl

/-- Unfolding of the slash split on a cons cell, with the inner split
already known to be non-empty. -/
lemma splitSlash_cons_eq (c : Char) (rest : List Char) :
    splitSlash (c :: rest) =
      if c = '/' then [] :: splitSlash rest
      else (c :: (splitSlash rest).headD []) :: (splitSlash rest).tail := by
  rw [splitSlash_cons_def]
  cases hsp : splitSlash rest with
  | nil => exact absurd hsp (splitSlash_ne_nil rest)
  | cons p ps => by_cases hc : c = '/' <;> simp [hc]

/-- The head default of a non-empty list is its member. -/
lemma headD_mem {α : Type _} {l : List α} (d : α) (h : l ≠ []) : l.headD d ∈ l := by
  cases l with
  | nil => exact absurd rfl h
  | cons a rest => simp

/-- Every character of a part of the slash split occurs in the input. -/
lemma mem_splitSlash {c : Char} : ∀ {l p : List Char}, p ∈ splitSlash l → c ∈ p → c ∈ l := by
  intro l
  induction l with
  | nil =>
    intro p hp hc
    simp [splitSlash] at hp
    subst hp
    simp at hc
  | cons a rest ih =>
    intro p hp hc
    rw [splitSlash_cons_eq] at hp
    by_cases ha : a = '/'
    · rw [if_pos ha] at hp
      rcases List.mem_cons.mp hp with h1 | h1
      · subst h1; simp at hc
      · exact List.mem_cons_of_mem _ (ih h1 hc)
    · rw [if_neg ha] at hp
      rcases List.mem_cons.mp hp with h1 | h1
      · subst h1
        rcases List.mem_cons.mp hc with h2 | h2
        · subst h2; exact List.mem_cons_self _ _
        · exact List.mem_cons_of_mem _
            (ih (headD_mem [] (splitSlash_ne_nil rest)) h2)
      · exact List.mem_cons_of_mem _ (ih ((List.tail_sublist _).subset h1) hc)

/-- Characters surviving a left trim occur in the input. -/
lemma mem_trimLeft {c : Char} : ∀ {l : List Char}, c ∈ trimLeft l → c ∈ l := by
  intro l
  induction l with
  | nil => intro h; simp [trimLeft] at h
  | cons a rest ih =>
    intro h
    unfold trimLeft at h
    split at h
    · exact List.mem_cons_of_mem _ (ih h)
    · exact h

/-- Unfolding of the right trim on a cons cell. -/
lemma trimRight_cons_eq (c : Char) (rest : List Char) :
    trimRight (c :: rest) =
      match trimRight rest with
      | [] => if rustIsWhitespace c then [] else [c]
      | d :: r => c :: d :: r := rfl

/-- Characters surviving a right trim occur in the input. -/
lemma mem_trimRight {c : Char} : ∀ {l : List Char}, c ∈ trimRight l → c ∈ l := by
  intro l
  induction l with
  | nil => intro h; simp [trimRight] at h
  | cons a rest ih =>
    intro h
    rw [trimRight_cons_eq] at h
    cases ht : trimRight rest with
    | nil =>
      rw [ht] at h
      change c ∈ if rustIsWhitespace a then [] else [a] at h
      by_cases hw : rustIsWhitespace a = true
      · rw [if_pos hw] at h; simp at h
      · rw [if_neg hw] at h
        simp at h
        subst h
        exact List.mem_cons_self _ _
    | cons d r =>
      rw [ht] at h
      change c ∈ a :: d :: r at h
      rcases List.mem_cons.mp h with h1 | h1
      · subst h1; exact List.mem_cons_self _ _
      · exact List.mem_cons_of_mem _ (ih (by rw [ht]; exact h1))

/-- Characters surviving the full trim occur in the input. -/
lemma mem_rustTrim {c : Char} {l : List Char} (h : c ∈ rustTrim l) : c ∈ l :=
  mem_trimLeft (mem_trimRight h)

/-- A successful association-list lookup returns one of the stored values. -/
lemma lookup_mem_values {α β : Type _} [BEq α] :
    ∀ (l : List (α × β)) (a : α) (b : β), l.lookup a = some b → b ∈ l.map Prod.snd := by
  intro l a b
  induction l with
  | nil => intro h; simp [List.lookup] at h
  | cons kv rest ih =>
    intro h
    obtain ⟨k, v⟩ := kv
    cases hk : a == k with
    | true =>
      simp only [List.lookup, hk, Option.some.injEq] at h
      subst h
      simp
    | false =>
      simp only [List.lookup, hk] at h
      exact List.mem_cons_of_mem _ (ih h)

/-- Lookup of a key absent from an association list fails. -/
lemma lookup_eq_none_of_not_mem {α β : Type _} [BEq α] [LawfulBEq α] :
    ∀ (l : List (α × β)) (a : α), a ∉ l.map Prod.fst → l.lookup a = none := by
  intro l a
  induction l with
  | nil => intro _; rfl
  | cons kv rest ih =>
    intro h
    obtain ⟨k, v⟩ := kv
    simp only [List.map_cons, List.mem_cons] at h
    push_neg at h
    have hk : (a == k) = false := by
      rw [beq_eq_false_iff_ne]
      exact h.1
    simp only [List.lookup, hk]
    exact ih h.2

/-- Every pitch class stored in the note table is below 12. -/
lemma lookupNote_lt_12 (s : List Char) (ri : Nat) (h : lookupNote s = some ri) : ri < 12 := by
  have hv := lookup_mem_values _ _ _ h
  have hall : ∀ v ∈ get_note_mapping.map Prod.snd, v < 12 := by decide
  exact hall ri hv

/-- Every quality lookup result, fallback included, starts with offset 0. -/
lemma quality_head (q : List Char) : (get_quality_intervals q).head? = some 0 := by
  unfold get_quality_intervals
  cases h : qualityTable.lookup q with
  | none => rfl
  | some v =>
    have hv := lookup_mem_values _ _ _ h
    have hall : ∀ v ∈ qualityTable.map Prod.snd, v.head? = some 0 := by decide
    simpa using hall v hv

/-- The first generated chord tone is the root pitch class itself. -/
lemma head_rootNotes (ri : Nat) (q : List Char) (h : ri < 12) :
    (rootNotes ri q).head? = some ri := by
  have h0 := quality_head q
  unfold rootNotes
  cases hq : get_quality_intervals q with
  | nil => rw [hq] at h0; simp at h0
  | cons a l =>
    rw [hq] at h0
    simp only [List.head?_cons, Option.some.injEq] at h0
    subst h0
    simp [Nat.mod_eq_of_lt h]

/-- Adding a bass note preserves membership of existing notes. -/
lemma addBass_mem {x : Nat} (b : List Char) (notes : List Nat) (h : x ∈ notes) :
    x ∈ addBass b notes := by
  unfold addBass
  by_cases hb : b = []
  · rw [if_pos hb]; exact h
  · rw [if_neg hb]
    cases hlb : lookupNote b with
    | none => exact h
    | some bb =>
      change x ∈ if bb ∈ notes then notes else bb :: notes
      by_cases hbn : bb ∈ notes
      · rw [if_pos hbn]; exact h
      · rw [if_neg hbn]; exact List.mem_cons_of_mem _ h

/-- Unfolding of the parser on input that does not trim to empty. -/
lemma parse_eq (input : List Char) (hne : rustTrim input ≠ []) :
    parse_chord_v5 input =
      match rootSplit (symbolOf (rustTrim input)) with
      | none => none
      | some (rootStr, qualityStr) =>
        match lookupNote rootStr with
        | none => some ("Err:".data ++ rootStr, [], [])
        | some rootIdx =>
          some ((if bassOf (rustTrim input) = [] then rootStr
                 else rootStr ++ '/' :: bassOf (rustTrim input)),
                qualityStr,
                addBass (bassOf (rustTrim input)) (rootNotes rootIdx qualityStr)) := by
  unfold parse_chord_v5
  rw [if_neg hne]

/-- A left trim does nothing on a non-whitespace head. -/
lemma trimLeft_cons_of {c : Char} (h : rustIsWhitespace c = false) (l : List Char) :
    trimLeft (c :: l) = c :: l := by
  simp [trimLeft, h]

/-- A right trim commutes with a non-whitespace head. -/
lemma trimRight_cons_of {c : Char} (h : rustIsWhitespace c = false) (l : List Char) :
    trimRight (c :: l) = c :: trimRight l := by
  rw [trimRight_cons_eq]
  cases ht : trimRight l with
  | nil => simp [h]
  | cons d r => rfl

/-- A full trim keeps two leading non-whitespace characters and reduces to
a right trim of the remainder. -/
lemma rustTrim_cons2 {c0 c1 : Char} (h0 : rustIsWhitespace c0 = false)
    (h1 : rustIsWhitespace c1 = false) (q : List Char) :
    rustTrim (c0 :: c1 :: q) = c0 :: c1 :: trimRight q := by
  unfold rustTrim
  rw [trimLeft_cons_of h0, trimRight_cons_of h0, trimRight_cons_of h1]

/-- Splitting on the slash commutes with a non-slash head character. -/
lemma splitSlash_cons_of {c : Char} (h : c ≠ '/') (l : List Char) :
    splitSlash (c :: l) = (c :: (splitSlash l).headD []) :: (splitSlash l).tail := by
  rw [splitSlash_cons_eq, if_neg h]

/-- The root separation step cannot panic on single-byte characters. -/
lemma rootSplit_ascii (symbol : List Char) (h : ∀ c ∈ symbol, c.utf8Size = 1) :
    ∃ pr, rootSplit symbol = some pr := by
  cases symbol with
  | nil => exact ⟨([], []), rfl⟩
  | cons c0 rest0 =>
    cases rest0 with
    | nil =>
      have h0 : c0.utf8Size = 1 := h c0 (by simp)
      refine ⟨([c0], []), ?_⟩
      simp [rootSplit, h0]
    | cons c1 rest =>
      have h0 : c0.utf8Size = 1 := h c0 (by simp)
      by_cases h1 : c1 = '#' ∨ c1 = 'b'
      · refine ⟨([c0, c1], rest), ?_⟩
        simp [rootSplit, h0, h1]
      · refine ⟨([c0], c1 :: rest), ?_⟩
        simp [rootSplit, h0, h1]

/-- Full description of the parser on inputs starting with a two-character
sharp or flat root spelling that resolves in the note table. -/
lemma parse_cons2_some (c0 c1 : Char) (q : List Char) (ri : Nat)
    (h0w : rustIsWhitespace c0 = false) (h0s : c0 ≠ '/') (h0z : c0.utf8Size = 1)
    (h1 : c1 = '#' ∨ c1 = 'b')
    (hlk : lookupNote [c0, c1] = some ri) :
    parse_chord_v5 (c0 :: c1 :: q) =
      some ((if bassOf (trimRight q) = [] then [c0, c1]
             else [c0, c1] ++ '/' :: bassOf (trimRight q)),
            symbolOf (trimRight q),
            addBass (bassOf (trimRight q)) (rootNotes ri (symbolOf (trimRight q)))) := by
  have h1w : rustIsWhitespace c1 = false := by
    rcases h1 with h | h <;> subst h <;> decide
  have h1s : c1 ≠ '/' := by
    rcases h1 with h | h <;> subst h <;> decide
  have h1z : c1.utf8Size = 1 := by
    rcases h1 with h | h <;> subst h <;> decide
  have htrim : rustTrim (c0 :: c1 :: q) = c0 :: c1 :: trimRight q :=
    rustTrim_cons2 h0w h1w q
  have hne : rustTrim (c0 :: c1 :: q) ≠ [] := by rw [htrim]; simp
  have hsp : splitSlash (c0 :: c1 :: trimRight q) =
      (c0 :: c1 :: (splitSlash (trimRight q)).headD []) :: (splitSlash (trimRight q)).tail := by
    rw [splitSlash_cons_of h0s, splitSlash_cons_of h1s]
    simp
  have hsym : symbolOf (c0 :: c1 :: trimRight q) =
      c0 :: c1 :: (splitSlash (trimRight q)).headD [] := by
    unfold symbolOf
    rw [hsp]
    rfl
  have hbass : bassOf (c0 :: c1 :: trimRight q) = bassOf (trimRight q) := by
    unfold bassOf
    rw [hsp]
    obtain ⟨p, ps, hps⟩ : ∃ p ps, splitSlash (trimRight q) = p :: ps := by
      cases h : splitSlash (trimRight q) with
      | nil => exact absurd h (splitSlash_ne_nil _)
      | cons p ps => exact ⟨p, ps, rfl⟩
    rw [hps]
    simp
  have hrs : rootSplit (c0 :: c1 :: (splitSlash (trimRight q)).headD []) =
      some ([c0, c1], (splitSlash (trimRight q)).headD []) := by
    simp only [rootSplit]
    rw [if_pos h1, if_pos h0z]
  have hquality : symbolOf (trimRight q) = (splitSlash (trimRight q)).headD [] := rfl
  rw [parse_eq _ hne, htrim]
  rw [hsym, hrs]
  simp only [hlk, hbass, hquality]

/-- C1 (counterexample): the claim asserts that an empty distinct set
yields an empty candidate list, score 0 and isPerfectMatch false, but the
code collects every candidate at score 0, judges the match perfect, and
the tie-break keeps depth 0 "C". -/
theorem c1_empty_counterexample :
    ¬((calculate_tonal_depth []).1 = [] ∧ (calculate_tonal_depth []).2.1 = 0 ∧
      (calculate_tonal_depth []).2.2 = false) := by
  decide

/-- C1 (amended): for an input whose distinct-set cardinality is 0, the
engine does not fail: it returns score 0, isPerfectMatch = true, and the
single candidate of depth 0 named "C". -/
theorem c1_empty_amended (notes : List Nat) (h : notes.dedup.length = 0) :
    calculate_tonal_depth notes = ([(0, "C")], 0, true) := by
  have hnil : notes = [] := by
    have hd : notes.dedup = [] := List.length_eq_zero.mp h
    exact (List.dedup_eq_nil notes).mp hd
  subst hnil
  decide

/-- C1 witness: the amended statement at the empty sequence. -/
theorem c1_empty_amended_witness : calculate_tonal_depth [] = ([(0, "C")], 0, true) :=
  c1_empty_amended [] (by decide)

/-- C2 (counterexample): on the single two-byte character input the Rust
parser panics (symbol byte length 2 passes the length test, but the
second-character unwrap fails); the model reports the panic as none, so
the parser is not total on arbitrary strings. -/
theorem c2_panic_counterexample : parse_chord_v5 "ø".data = none := by decide

/-- C2 (amended): on every input made of single-byte characters the
parser terminates without panicking and returns a well-typed triple. -/
theorem c2_ascii_no_panic (l : List Char) (h : ∀ c ∈ l, c.utf8Size = 1) :
    ∃ t, parse_chord_v5 l = some t := by
  by_cases hs : rustTrim l = []
  · refine ⟨(['?'], [], []), ?_⟩
    unfold parse_chord_v5
    rw [if_pos hs]
  · have hsym : ∀ c ∈ symbolOf (rustTrim l), c.utf8Size = 1 := by
      intro c hc
      exact h c (mem_rustTrim (mem_splitSlash (headD_mem [] (splitSlash_ne_nil _)) hc))
    obtain ⟨⟨root, qual⟩, hr⟩ := rootSplit_ascii _ hsym
    rw [parse_eq l hs, hr]
    cases hn : lookupNote root with
    | none => exact ⟨("Err:".data ++ root, [], []), by simp [hn]⟩
    | some ri =>
      exact ⟨((if bassOf (rustTrim l) = [] then root
               else root ++ '/' :: bassOf (rustTrim l)), qual,
              addBass (bassOf (rustTrim l)) (rootNotes ri qual)), by simp [hn]⟩

/-- C2 witness: the amended statement at a concrete slash-chord input. -/
theorem c2_ascii_no_panic_witness : ∃ t, parse_chord_v5 "C#m7/Bb".data = some t :=
  c2_ascii_no_panic "C#m7/Bb".data (by decide)


/-- C3: when isPerfectMatch is true, the engine keeps only the first
element of the stable sort of the tied candidates by ascending absolute
depth (so at most one candidate is returned); in particular the C major
triad pitch classes yield exactly one candidate, depth 0, named "C". -/
theorem c3_perfect_tiebreak :
    (∀ notes : List Nat, (calculate_tonal_depth notes).2.2 = true →
      (calculate_tonal_depth notes).1 =
        (sortByAbsDepth (collectCandidates notes.dedup).2).take 1 ∧
      (calculate_tonal_depth notes).1.length ≤ 1) ∧
    calculate_tonal_depth [0, 4, 7] = ([(0, "C")], 3, true) := by
  constructor
  · intro notes h
    unfold calculate_tonal_depth at h ⊢
    dsimp only at h ⊢
    rw [h]
    have he : (if true && !(collectCandidates notes.dedup).2.isEmpty
        then (sortByAbsDepth (collectCandidates notes.dedup).2).take 1
        else (collectCandidates notes.dedup).2) =
        (sortByAbsDepth (collectCandidates notes.dedup).2).take 1 := by
      cases hcs : (collectCandidates notes.dedup).2 with
      | nil => simp [sortByAbsDepth]
      | cons x xs => simp
    rw [he]
    refine ⟨rfl, ?_⟩
    simp [List.length_take]
  · decide

/-- C3 witness: the general part instantiated at the C major triad. -/
theorem c3_perfect_tiebreak_witness :
    (calculate_tonal_depth [0, 4, 7]).1 =
      (sortByAbsDepth (collectCandidates ([0, 4, 7] : List Nat).dedup).2).take 1 ∧
    (calculate_tonal_depth [0, 4, 7]).1.length ≤ 1 :=
  c3_perfect_tiebreak.1 [0, 4, 7] (by decide)

/-- C4: when isPerfectMatch is false, all candidates tied for the maximum
score are retained in visitation order; in particular the diminished
seventh pitch classes 1, 4, 7, 10 are not a perfect match and yield four
tied candidates. -/
theorem c4_ambiguous_retained :
    (∀ notes : List Nat, (calculate_tonal_depth notes).2.2 = false →
      (calculate_tonal_depth notes).1 = (collectCandidates notes.dedup).2) ∧
    calculate_tonal_depth [1, 4, 7, 10] =
      ([(-1, "F"), (2, "D"), (-4, "Ab"), (5, "B")], 3, false) ∧
    1 < (calculate_tonal_depth [1, 4, 7, 10]).1.length := by
  refine ⟨?_, by decide, by decide⟩
  intro notes h
  unfold calculate_tonal_depth at h ⊢
  dsimp only at h ⊢
  rw [h]
  simp

/-- C4 witness: the general part instantiated at the diminished seventh. -/
theorem c4_ambiguous_retained_witness :
    (calculate_tonal_depth [1, 4, 7, 10]).1 =
      (collectCandidates ([1, 4, 7, 10] : List Nat).dedup).2 :=
  c4_ambiguous_retained.1 [1, 4, 7, 10] (by decide)

/-- C5: parsing "Fm9" yields exactly the pitch classes 5, 8, 0, 3, 7 (root
F = 5 with offsets 0, 3, 7, 10, 14 reduced mod 12), and parsing "C/Bb"
prepends the bass pitch class 10 ahead of the C major triad 0, 4, 7
because 10 is not already a member. -/
theorem c5_parse_round_trip :
    parse_chord_v5 "Fm9".data = some ("F".data, "m9".data, [5, 8, 0, 3, 7]) ∧
    parse_chord_v5 "C/Bb".data = some ("C/Bb".data, [], [10, 0, 4, 7]) := by
  decide

/-- C6: every quality token absent from the quality table falls back to
the power-chord offsets 0, 7, and the parser does not report this as an
error: a chord with an unknown quality still parses with a plain display
name and the fallback notes. -/
theorem c6_unknown_quality_fallback :
    (∀ q : List Char, q ∉ qualityTable.map Prod.fst → get_quality_intervals q = [0, 7]) ∧
    parse_chord_v5 "Cxyz".data = some (['C'], "xyz".data, [0, 7]) := by
  refine ⟨?_, by decide⟩
  intro q hq
  unfold get_quality_intervals
  rw [lookup_eq_none_of_not_mem _ _ hq]
  rfl

/-- C6 witness: the fallback at the concrete unknown token "xyz". -/
theorem c6_unknown_quality_fallback_witness :
    get_quality_intervals "xyz".data = [0, 7] :=
  c6_unknown_quality_fallback.1 "xyz".data (by decide)

/-- C7: whenever the extracted root spelling is absent from the note
table, the parser returns the degraded triple with display "Err:" plus
the root spelling and no pitch classes, and the concrete input "H" shows
this behavior. -/
theorem c7_unknown_root_error :
    (∀ (input root qual : List Char), rustTrim input ≠ [] →
      rootSplit (symbolOf (rustTrim input)) = some (root, qual) →
      lookupNote root = none →
      parse_chord_v5 input = some ("Err:".data ++ root, [], [])) ∧
    parse_chord_v5 "H".data = some ("Err:H".data, [], []) := by
  refine ⟨?_, by decide⟩
  intro input root qual h1 h2 h3
  rw [parse_eq input h1, h2]
  simp [h3]

/-- C7 witness: the general part instantiated at the input "H". -/
theorem c7_unknown_root_error_witness :
    parse_chord_v5 "H".data = some ("Err:".data ++ ['H'], [], []) :=
  c7_unknown_root_error.1 "H".data ['H'] [] (by decide) (by decide) (by decide)

/-- C8: the interval labeler is total on pitch classes below 12 and equals
indexing the fixed table R, b9, 9, m3, M3, 11, #11, 5, b13, 13, m7, M7 at
diff = (target + 12 - root) mod 12; the three sample labels hold. -/
theorem c8_interval_label_total :
    (∀ root, root < 12 → ∀ target, target < 12 →
      get_interval_label root target =
        intervalLabels.getD ((target + 12 - root) % 12) "?") ∧
    get_interval_label 0 1 = "b9" ∧
    get_interval_label 0 7 = "5" ∧
    get_interval_label 5 0 = "5" := by
  refine ⟨?_, by decide, by decide, by decide⟩
  decide

/-- C8 witness: the general part instantiated at root 0, target 1. -/
theorem c8_interval_label_total_witness :
    get_interval_label 0 1 = intervalLabels.getD ((1 + 12 - 0) % 12) "?" :=
  c8_interval_label_total.1 0 (by decide) 1 (by decide)

/-- C9: for each enharmonic pair of valid root spellings (same pitch
class) and every suffix, parsing the two concatenated chord symbols gives
the same quality token and the same pitch-class sequence, differing only
in the returned display spelling. -/
theorem c9_enharmonic_equivalence :
    ∀ (q r1 r2 : List Char), (r1, r2) ∈ enharmonic_pairs →
    ∃ pc d1 d2 qual notes,
      lookupNote r1 = some pc ∧ lookupNote r2 = some pc ∧
      parse_chord_v5 (r1 ++ q) = some (d1, qual, notes) ∧
      parse_chord_v5 (r2 ++ q) = some (d2, qual, notes) := by
  intro q r1 r2 hmem
  simp only [enharmonic_pairs, List.mem_cons, List.not_mem_nil, or_false,
    Prod.mk.injEq] at hmem
  rcases hmem with ⟨h1, h2⟩ | ⟨h1, h2⟩ | ⟨h1, h2⟩ | ⟨h1, h2⟩ | ⟨h1, h2⟩ <;>
    subst h1 <;> subst h2
  · exact ⟨1, _, _, _, _, by decide, by decide,
      parse_cons2_some 'C' '#' q 1 (by decide) (by decide) (by decide) (by decide) (by decide),
      parse_cons2_some 'D' 'b' q 1 (by decide) (by decide) (by decide) (by decide) (by decide)⟩
  · exact ⟨3, _, _, _, _, by decide, by decide,
      parse_cons2_some 'D' '#' q 3 (by decide) (by decide) (by decide) (by decide) (by decide),
      parse_cons2_some 'E' 'b' q 3 (by decide) (by decide) (by decide) (by decide) (by decide)⟩
  · exact ⟨6, _, _, _, _, by decide, by decide,
      parse_cons2_some 'F' '#' q 6 (by decide) (by decide) (by decide) (by decide) (by decide),
      parse_cons2_some 'G' 'b' q 6 (by decide) (by decide) (by decide) (by decide) (by decide)⟩
  · exact ⟨8, _, _, _, _, by decide, by decide,
      parse_cons2_some 'G' '#' q 8 (by decide) (by decide) (by decide) (by decide) (by decide),
      parse_cons2_some 'A' 'b' q 8 (by decide) (by decide) (by decide) (by decide) (by decide)⟩
  · exact ⟨10, _, _, _, _, by decide, by decide,
      parse_cons2_some 'A' '#' q 10 (by decide) (by decide) (by decide) (by decide) (by decide),
      parse_cons2_some 'B' 'b' q 10 (by decide) (by decide) (by decide) (by decide) (by decide)⟩

/-- C9 witness: the pair C sharp and D flat with the quality token m7. -/
theorem c9_enharmonic_equivalence_witness :
    ∃ pc d1 d2 qual notes,
      lookupNote ['C', '#'] = some pc ∧ lookupNote ['D', 'b'] = some pc ∧
      parse_chord_v5 (['C', '#'] ++ "m7".data) = some (d1, qual, notes) ∧
      parse_chord_v5 (['D', 'b'] ++ "m7".data) = some (d2, qual, notes) :=
  c9_enharmonic_equivalence "m7".data ['C', '#'] ['D', 'b'] (by decide)

/-- C10: every quality interval list, the fallback included, begins with
offset 0; hence every parse with a resolved root puts the root pitch
class into the note sequence, and when the bass step leaves the base
sequence unchanged the root pitch class is its first element. -/
theorem c10_root_membership :
    (∀ q : List Char, (get_quality_intervals q).head? = some 0) ∧
    (∀ (input root qual : List Char) (ri : Nat),
      rustTrim input ≠ [] →
      rootSplit (symbolOf (rustTrim input)) = some (root, qual) →
      lookupNote root = some ri →
      parse_chord_v5 input = some
        ((if bassOf (rustTrim input) = [] then root
          else root ++ '/' :: bassOf (rustTrim input)), qual,
         addBass (bassOf (rustTrim input)) (rootNotes ri qual)) ∧
      ri ∈ addBass (bassOf (rustTrim input)) (rootNotes ri qual) ∧
      (addBass (bassOf (rustTrim input)) (rootNotes ri qual) = rootNotes ri qual →
        (addBass (bassOf (rustTrim input)) (rootNotes ri qual)).head? = some ri)) := by
  constructor
  · exact quality_head
  · intro input root qual ri h1 h2 h3
    have hlt := lookupNote_lt_12 root ri h3
    have hhead := head_rootNotes ri qual hlt
    refine ⟨?_, ?_, ?_⟩
    · rw [parse_eq input h1, h2]
      simp [h3]
    · apply addBass_mem
      cases hq : rootNotes ri qual with
      | nil => rw [hq] at hhead; simp at hhead
      | cons a l =>
        rw [hq] at hhead
        simp only [List.head?_cons, Option.some.injEq] at hhead
        subst hhead
        exact List.mem_cons_self _ _
    · intro heq
      rw [heq]
      exact hhead

/-- C10 witness: the general part instantiated at the input "Fm9". -/
theorem c10_root_membership_witness :
    parse_chord_v5 "Fm9".data = some
      ((if bassOf (rustTrim "Fm9".data) = [] then ['F']
        else ['F'] ++ '/' :: bassOf (rustTrim "Fm9".data)), "m9".data,
       addBass (bassOf (rustTrim "Fm9".data)) (rootNotes 5 "m9".data)) ∧
    5 ∈ addBass (bassOf (rustTrim "Fm9".data)) (rootNotes 5 "m9".data) ∧
    (addBass (bassOf (rustTrim "Fm9".data)) (rootNotes 5 "m9".data) =
        rootNotes 5 "m9".data →
      (addBass (bassOf (rustTrim "Fm9".data)) (rootNotes 5 "m9".data)).head? = some 5) :=
  c10_root_membership.2 "Fm9".data ['F'] "m9".data 5 (by decide) (by decide) (by decide)
